import Mathlib

/-!
# redix `db.go`: the key-value facade over the storage engine

A shallow embedding of `src/db.go` (`DB.Set`, `DB.MSet`, `DB.Get`, `DB.MGet`,
`DB.Del`, `DB.Scan`) over a model of the storage engine it calls, followed by
the properties of the facade.

Go strings are byte sequences: a key or a value is a list of bytes, a byte is a
natural number (its bound plays no role in the order), and keys are ordered
lexicographically.  A Go `error` is an `Option Err`, `none` being `nil`.  A Go
closure with captured variables is a function that takes and returns the
captured state.  Time is a clock reading passed to every call.

The engine (badger) is not part of `src/`: it is modelled as an ordered list of
entries with optional expiry.  Four engine failures are visible to `db.go` and
are modelled: a key that is absent or expired (`ErrKeyNotFound`), the empty key,
which the engine neither reads, writes nor deletes (`ErrEmptyKey`), a write or
delete the engine refuses, for instance because the transaction already
holds too many writes (`ErrRejected`, decided by `Badger.accepts`), and a stored
value that cannot be retrieved (`ErrValueRead`, the flag `Item.unreadable`).
Calls are sequential, so a commit has no conflict and does not fail.
-/

namespace Redix

/-! ## Keys, values, errors -/

/-- A Go string used as a key: a sequence of bytes. -/
abbrev Key := List Nat

/-- A Go string used as a value: a sequence of bytes. -/
abbrev Value := List Nat

/-- Modelled from the spec: the byte-wise lexicographic order of the engine's
keys (`bytes.Compare k1 k2 < 0`); the engine is not under `src/`. -/
def keyLt : Key → Key → Bool
  | [], [] => false
  | [], _ :: _ => true
  | _ :: _, [] => false
  | a :: as, b :: bs => decide (a < b) || (decide (a = b) && keyLt as bs)

/-- Modelled from the spec: `bytes.HasPrefix k p`, the key `k` starts with the
bytes `p`. -/
def hasPrefix : Key → Key → Bool
  | _, [] => true
  | [], _ :: _ => false
  | a :: as, b :: bs => decide (a = b) && hasPrefix as bs

/-- The errors of the engine that the facade can see. -/
inductive Err where
  | ErrKeyNotFound
  | ErrEmptyKey
  | ErrRejected
  | ErrValueRead
  deriving DecidableEq, Repr

/-! ## The storage engine -/

/-- Modelled from the spec: one stored entry of the engine.  `expiresAt` is
`none` for an entry written without expiry.  `unreadable` says that retrieving
the value of the entry fails (`item.ValueCopy` returns an error). -/
structure Item where
  key : Key
  value : Value
  expiresAt : Option Int
  unreadable : Bool
  deriving DecidableEq, Repr

/-- Modelled from the spec: the storage engine handle (`*badger.DB`).  `accepts`
is the engine's admission check of a single write or delete, given the number
of writes the transaction already holds (`txn.Set` and `txn.Delete` return an
error when it is false); `items` are the stored entries, ascending by key. -/
structure Badger where
  accepts : Nat → Key → Value → Bool
  items : List Item

/-- The entries of a store are strictly ascending by key (hence keys are
unique): the engine's ordering invariant. -/
def Badger.Sorted (b : Badger) : Prop :=
  b.items.Pairwise (fun x y => keyLt x.key y.key = true)

/-- Modelled from the spec: a transaction of the engine, a private view of the
entries taken at clock reading `now`; `pending` counts the writes and deletes
it holds. -/
structure Txn where
  accepts : Nat → Key → Value → Bool
  now : Int
  items : List Item
  pending : Nat

/-- Modelled from the spec: key expiry honoured on read; an entry is live at
`now` when it has no expiry or its expiry lies in the future. -/
def Item.live (now : Int) (i : Item) : Bool :=
  match i.expiresAt with
  | none => true
  | some e => decide (now < e)

/-- Modelled from the spec: ordered write of one entry, replacing the entry of
the same key if there is one. -/
def insertItem (n : Item) : List Item → List Item
  | [] => [n]
  | i :: rest =>
    if keyLt n.key i.key then n :: i :: rest
    else if i.key = n.key then n :: rest
    else i :: insertItem n rest

/-- Modelled from the spec: the admission of one write or delete into a
transaction, shared by `txn.Set`, `txn.SetWithTTL` and `txn.Delete`: the empty
key is refused, and so is what the engine's check does not accept. -/
def Txn.admission (t : Txn) (k : Key) (v : Value) : Option Err :=
  if k = [] then some Err.ErrEmptyKey
  else if t.accepts t.pending k v then none
  else some Err.ErrRejected

/-- Modelled from the spec: `txn.Set`, a write without expiry; fails, leaving
the transaction unchanged, when the write is not admitted. -/
def Txn.Set (t : Txn) (k : Key) (v : Value) : Txn × Option Err :=
  match t.admission k v with
  | some e => (t, some e)
  | none =>
    (⟨t.accepts, t.now, insertItem ⟨k, v, none, false⟩ t.items, t.pending + 1⟩, none)

/-- Modelled from the spec: `txn.SetWithTTL`, a write that expires `dur` after
the transaction's clock reading. -/
def Txn.SetWithTTL (t : Txn) (k : Key) (v : Value) (dur : Int) : Txn × Option Err :=
  match t.admission k v with
  | some e => (t, some e)
  | none =>
    (⟨t.accepts, t.now, insertItem ⟨k, v, some (t.now + dur), false⟩ t.items,
      t.pending + 1⟩, none)

/-- Modelled from the spec: `txn.Get`, the live entry of a key; the empty key
is an error of its own, and a key that is absent or expired is the not-found
condition. -/
def Txn.Get (t : Txn) (k : Key) : Except Err Item :=
  if k = [] then .error Err.ErrEmptyKey
  else
    match t.items.find? (fun i => decide (i.key = k)) with
    | some i => if i.live t.now then .ok i else .error Err.ErrKeyNotFound
    | none => .error Err.ErrKeyNotFound

/-- Modelled from the spec: `txn.Delete`, the write of a deletion mark for the
key; it goes through the same admission as a write (with the empty value) and
fails, leaving the transaction unchanged, when it is not admitted.  An admitted
delete of a missing key changes nothing. -/
def Txn.Delete (t : Txn) (k : Key) : Txn × Option Err :=
  match t.admission k [] with
  | some e => (t, some e)
  | none =>
    (⟨t.accepts, t.now, t.items.filter (fun i => !decide (i.key = k)), t.pending + 1⟩, none)

/-- Modelled from the spec: `item.KeyCopy(nil)`. -/
def Item.KeyCopy (i : Item) : Key := i.key

/-- Modelled from the spec: `item.ValueCopy(nil)`, which can fail. -/
def Item.ValueCopy (i : Item) : Except Err Value :=
  if i.unreadable then .error Err.ErrValueRead else .ok i.value

/-- Modelled from the spec: `db.Update(fn)`; the transaction is committed when
`fn` returns `nil` and discarded when it returns an error.  The commit of a
sequential call does not fail. -/
def Badger.Update (b : Badger) (now : Int) (fn : Txn → Txn × Option Err) :
    Badger × Option Err :=
  match fn ⟨b.accepts, now, b.items, 0⟩ with
  | (t, none) => (⟨b.accepts, t.items⟩, none)
  | (_, some e) => (b, some e)

/-- Modelled from the spec: `db.View(fn)`, a read-only transaction; returns
what `fn` returns. -/
def Badger.View {α : Type} (b : Badger) (now : Int) (fn : Txn → α × Option Err) :
    α × Option Err :=
  fn ⟨b.accepts, now, b.items, 0⟩

/-- Modelled from the spec: the cursor of the engine over the live entries of a
transaction.  `all` are the live entries in ascending key order, `pos` the
entries at and after the cursor. -/
structure Iterator where
  all : List Item
  pos : List Item

/-- Modelled from the spec: `txn.NewIterator`. -/
def Txn.NewIterator (t : Txn) : Iterator :=
  ⟨t.items.filter (fun i => i.live t.now), []⟩

/-- Modelled from the spec: `it.Rewind()`, the cursor at the first key. -/
def Iterator.Rewind (it : Iterator) : Iterator := { it with pos := it.all }

/-- Modelled from the spec: `it.Seek(k)`, the cursor at the first key `≥ k`. -/
def Iterator.Seek (it : Iterator) (k : Key) : Iterator :=
  { it with pos := it.all.dropWhile (fun i => keyLt i.key k) }

/-- Modelled from the spec: `it.Valid()`, the cursor is not past the end. -/
def Iterator.Valid (it : Iterator) : Bool := !it.pos.isEmpty

/-- Modelled from the spec: `it.ValidForPrefix(p)`, the cursor is on an entry
whose key starts with `p`. -/
def Iterator.ValidForPrefix (it : Iterator) (p : Key) : Bool :=
  match it.pos with
  | [] => false
  | i :: _ => hasPrefix i.key p

/-- Modelled from the spec: `it.Next()`, advance one position. -/
def Iterator.Next (it : Iterator) : Iterator := { it with pos := it.pos.tail }

/-! ## The facade (`src/db.go`) -/

/-- The `DB` structure of `db.go`. -/
structure DB where
  badger : Badger

/-- A Go `int`: two's complement wrap-around to 64 bits. -/
def wrapInt64 (x : Int) : Int := (x + 2 ^ 63) % 2 ^ 64 - 2 ^ 63

/-- `time.Millisecond`, in nanoseconds. -/
def Millisecond : Int := 1000000

/-- `DB.Set` (db.go 15-25). -/
def DB.Set (db : DB) (now : Int) (k : Key) (v : Value) (ttl : Int) : DB × Option Err :=
  let r := db.badger.Update now (fun txn =>
    if ttl < 1 then txn.Set k v
    else txn.SetWithTTL k v (wrapInt64 (ttl * Millisecond)))
  (⟨r.1⟩, r.2)

/-- `DB.MSet` (db.go 28-35).  The Go map is the list of its pairs in the order
the `range` visits them; the error of `txn.Set` is dropped. -/
def DB.MSet (db : DB) (now : Int) (data : List (Key × Value)) : DB × Option Err :=
  let r := db.badger.Update now (fun txn =>
    (data.foldl (fun t kv => (t.Set kv.1 kv.2).1) txn, none))
  (⟨r.1⟩, r.2)

/-- `DB.Get` (db.go 38-58). -/
def DB.Get (db : DB) (now : Int) (k : Key) : Value × Option Err :=
  db.badger.View now (fun txn =>
    match txn.Get k with
    | .error err => ([], some err)
    | .ok item =>
      match item.ValueCopy with
      | .error err => ([], some err)
      | .ok val => (val, none))

/-- `DB.MGet` (db.go 61-80); the error of `View` is dropped. -/
def DB.MGet (db : DB) (now : Int) (keys : List Key) : List Value :=
  (db.badger.View now (fun txn =>
    (keys.foldl (fun data key =>
      match txn.Get key with
      | .error _ => data ++ [[]]
      | .ok item =>
        match item.ValueCopy with
        | .error _ => data ++ [[]]
        | .ok val => data ++ [val]) [], none))).1

/-- `DB.Del` (db.go 83-91); the error of `txn.Delete` is dropped. -/
def DB.Del (db : DB) (now : Int) (keys : List Key) : DB × Option Err :=
  let r := db.badger.Update now (fun txn =>
    (keys.foldl (fun t key => (t.Delete key).1) txn, none))
  (⟨r.1⟩, r.2)

/-- The scanner options read by `DB.Scan`.  `Handler` is a Go closure: it takes
the state it captured and returns the new state with its continue flag. -/
structure ScannerOptions (σ : Type) where
  Offset : Key
  IncludeOffset : Bool
  Prefix : Key
  FetchValues : Bool
  Handler : σ → Key → Value → σ × Bool

/-- What a scan leaves behind: the handler's state, the handler calls made, in
order, and the error returned. -/
structure ScanResult (σ : Type) where
  state : σ
  calls : List (Key × Value)
  err : Option Err

/-- The closure `start` of `DB.Scan` (db.go 102-111). -/
def Scan.start {σ : Type} (scannerOpt : ScannerOptions σ) (it : Iterator) : Iterator :=
  if scannerOpt.Offset = [] then it.Rewind
  else
    let it := it.Seek scannerOpt.Offset
    if !scannerOpt.IncludeOffset && it.Valid then it.Next else it

/-- The closure `valid` of `DB.Scan` (db.go 113-123). -/
def Scan.valid {σ : Type} (scannerOpt : ScannerOptions σ) (it : Iterator) : Bool :=
  if !it.Valid then false
  else if decide (scannerOpt.Prefix ≠ []) && !it.ValidForPrefix scannerOpt.Prefix then false
  else true

/-- The `for` loop of `DB.Scan` (db.go 125-138), by recursion on the entries at
and after the cursor: `all` is the iterator's snapshot, the list argument its
position, and the recursive call is `it.Next()`. -/
def Scan.loop {σ : Type} (scannerOpt : ScannerOptions σ) (all : List Item) :
    List Item → σ → σ × List (Key × Value)
  | [], st => (st, [])
  | item :: rest, st =>
    if Scan.valid scannerOpt ⟨all, item :: rest⟩ then
      let k := item.KeyCopy
      let v : Value :=
        if scannerOpt.FetchValues then
          match item.ValueCopy with
          | .ok val => val
          | .error _ => []
        else []
      let r := scannerOpt.Handler st k v
      if !r.2 then (r.1, [(k, v)])
      else
        let w := Scan.loop scannerOpt all rest r.1
        (w.1, (k, v) :: w.2)
    else (st, [])

/-- `DB.Scan` (db.go 94-142). -/
def DB.Scan {σ : Type} (db : DB) (now : Int) (scannerOpt : ScannerOptions σ) (st : σ) :
    ScanResult σ :=
  let r := db.badger.View now (fun txn =>
    let it := txn.NewIterator
    let it := Scan.start scannerOpt it
    (Scan.loop scannerOpt it.all it.pos st, none))
  ⟨r.1.1, r.1.2, r.2⟩

/-! ## Notions of the specification -/

/-- The live keys of a store at `now`, in the order of the store. -/
def liveKeys (db : DB) (now : Int) : List Key :=
  (db.badger.items.filter (fun i => i.live now)).map (fun i => i.key)

/-- The options of a scan with the handler replaced by one that always
continues and captures nothing: the scan that is never stopped. -/
def ScannerOptions.always {σ : Type} (o : ScannerOptions σ) : ScannerOptions Unit :=
  ⟨o.Offset, o.IncludeOffset, o.Prefix, o.FetchValues, fun st _ _ => (st, true)⟩

/-- The continue flags a handler returns when it is called on the entries
`cs` one after the other, starting from the captured state `st`. -/
def replay {σ : Type} (h : σ → Key → Value → σ × Bool) : σ → List (Key × Value) → List Bool
  | _, [] => []
  | st, c :: cs => (h st c.1 c.2).2 :: replay h (h st c.1 c.2).1 cs

/-- The captured state of a handler after it was called on the entries `cs`. -/
def runHandler {σ : Type} (h : σ → Key → Value → σ × Bool) (st : σ)
    (cs : List (Key × Value)) : σ :=
  cs.foldl (fun s c => (h s c.1 c.2).1) st

/-- The entry the scan loop hands to the handler when the cursor is on `i`. -/
def entryOf (fetch : Bool) (i : Item) : Key × Value :=
  (i.key, if fetch then (match i.ValueCopy with
    | .ok val => val
    | .error _ => []) else [])

/-- The live entries of a store at `now`, in the order of the store. -/
def liveItems (db : DB) (now : Int) : List Item :=
  db.badger.items.filter (fun i => i.live now)

/-- The cursor position the closure `start` leaves, as a function of the live
entries `all`. -/
def startPos {σ : Type} (o : ScannerOptions σ) (all : List Item) : List Item :=
  if o.Offset = [] then all
  else if o.IncludeOffset then all.dropWhile (fun i => keyLt i.key o.Offset)
  else (all.dropWhile (fun i => keyLt i.key o.Offset)).tail

/-- A handler that captures nothing and always continues; empty offset, empty
prefix, values fetched. -/
def visitAll : ScannerOptions Unit := ⟨[], false, [], true, fun st _ _ => (st, true)⟩

/-- An admission check that accepts every write and delete of a non-empty
key. -/
def acceptAll : Nat → Key → Value → Bool := fun _ _ _ => true

/-- An admission check under which a transaction holds at most two writes or
deletes. -/
def atMostTwo : Nat → Key → Value → Bool := fun n _ _ => decide (n < 2)

/-- A readable entry without expiry. -/
def plainItem (k : Key) (v : Value) : Item := ⟨k, v, none, false⟩

/-- The store of the spec's scenario: `"a" -> "1"`, `"ab" -> "2"`, `"b" -> "3"`. -/
def scenarioDB : DB :=
  ⟨⟨acceptAll, [plainItem [97] [49], plainItem [97, 98] [50], plainItem [98] [51]]⟩⟩

/-- The scan of the whole store that starts after the offset `"aa"`, which is
not a key of `scenarioDB`. -/
def afterAA : ScannerOptions Unit := ⟨[97, 97], false, [], true, fun st _ _ => (st, true)⟩

/-- The scan of the whole store that starts after the offset `"ab"`. -/
def afterAB : ScannerOptions Unit := ⟨[97, 98], false, [], true, fun st _ _ => (st, true)⟩

/-- A handler that counts its calls and returns false on each of them. -/
def stopAtOnce : ScannerOptions Nat := ⟨[], false, [], true, fun n _ _ => (n + 1, false)⟩

/-- A store whose entry `"a"` has a value that cannot be retrieved, next to
the readable entry `"b" -> "3"`. -/
def damagedDB : DB :=
  ⟨⟨acceptAll, [⟨[97], [49], none, true⟩, plainItem [98] [51]]⟩⟩

/-- An entry whose value cannot be retrieved, replaced by a readable entry
with the empty value. -/
def Item.blanked (i : Item) : Item :=
  if i.unreadable then ⟨i.key, [], i.expiresAt, false⟩ else i

/-- The store in which every entry whose value cannot be retrieved holds the
empty value instead. -/
def DB.blanked (db : DB) : DB :=
  ⟨⟨db.badger.accepts, db.badger.items.map Item.blanked⟩⟩

/-- The value `MGet` is to report for a key: the stored value when the key is
live and its value can be retrieved, the empty string otherwise; the empty key
cannot be read. -/
def valueOrEmpty (db : DB) (now : Int) (k : Key) : Value :=
  if k = [] then []
  else
    match db.badger.items.find? (fun i => decide (i.key = k)) with
    | some i => if i.live now && !i.unreadable then i.value else []
    | none => []

/-- The entry the engine holds for a key, live or not. -/
def lookup (db : DB) (k : Key) : Option Item :=
  db.badger.items.find? (fun i => decide (i.key = k))

/-- A write operation of the facade, with the clock reading of its call. -/
inductive Op where
  | set (now : Int) (k : Key) (v : Value) (ttl : Int)
  | mset (now : Int) (data : List (Key × Value))
  | del (now : Int) (keys : List Key)

/-- The operation writes or deletes the key `k`. -/
def Op.writes (k : Key) : Op → Bool
  | .set _ k2 _ _ => decide (k2 = k)
  | .mset _ data => data.any (fun kv => decide (kv.1 = k))
  | .del _ keys => keys.any (fun k2 => decide (k2 = k))

/-- The store after the operation. -/
def Op.run (db : DB) : Op → DB
  | .set now k v ttl => (db.Set now k v ttl).1
  | .mset now data => (db.MSet now data).1
  | .del now keys => (db.Del now keys).1

/-- The store after a sequence of write operations. -/
def runOps (db : DB) (ops : List Op) : DB := ops.foldl Op.run db

/-- A store whose entry `"x"` is about to expire and whose key `"y"` is absent. -/
def expiringDB : DB := ⟨⟨acceptAll, [⟨[120], [49], some 5, false⟩]⟩⟩

/-- The store `"x" -> "1"` of an engine whose transactions hold at most two
writes or deletes. -/
def smallTxnDB : DB := ⟨⟨atMostTwo, [plainItem [120] [49]]⟩⟩

/-! ## Lemmas on the key order -/

theorem keyLt_irrefl (a : Key) : keyLt a a = false := by
  induction a with
  | nil => rfl
  | cons x xs ih => simp [keyLt, ih]

theorem keyLt_trans : ∀ (a b c : Key), keyLt a b = true → keyLt b c = true → keyLt a c = true
  | [], [], _, h, _ => by simp [keyLt] at h
  | [], _ :: _, [], _, h => by simp [keyLt] at h
  | [], _ :: _, _ :: _, _, _ => by simp [keyLt]
  | _ :: _, [], _, h, _ => by simp [keyLt] at h
  | _ :: _, _ :: _, [], _, h => by simp [keyLt] at h
  | x :: xs, y :: ys, z :: zs, h1, h2 => by
    simp only [keyLt, Bool.or_eq_true, Bool.and_eq_true, decide_eq_true_eq] at h1 h2 ⊢
    rcases h1 with h1 | ⟨h1, h1r⟩
    · rcases h2 with h2 | ⟨h2, _⟩
      · left; omega
      · left; omega
    · rcases h2 with h2 | ⟨h2, h2r⟩
      · left; omega
      · right; exact ⟨by omega, keyLt_trans xs ys zs h1r h2r⟩

/-- The order `keyLt` is the lexicographic order of lists of bytes. -/
theorem keyLt_iff_lex : ∀ (a b : Key),
    keyLt a b = true ↔ List.Lex (fun x y : Nat => x < y) a b
  | [], [] => by
    simp only [keyLt, Bool.false_eq_true, false_iff]
    intro h; cases h
  | [], _ :: _ => by
    simp only [keyLt, true_iff]
    exact List.Lex.nil
  | _ :: _, [] => by
    simp only [keyLt, Bool.false_eq_true, false_iff]
    intro h; cases h
  | x :: xs, y :: ys => by
    simp only [keyLt, Bool.or_eq_true, Bool.and_eq_true, decide_eq_true_eq]
    constructor
    · rintro (h | ⟨h1, h2⟩)
      · exact List.Lex.rel h
      · subst h1
        exact List.Lex.cons ((keyLt_iff_lex xs ys).1 h2)
    · intro h
      cases h with
      | cons h2 => right; exact ⟨rfl, (keyLt_iff_lex xs ys).2 h2⟩
      | rel h1 => left; exact h1

theorem keyLt_ne (a b : Key) (h : keyLt a b = true) : a ≠ b := by
  intro e; subst e; simp [keyLt_irrefl] at h

/-- A key that starts with `p` is not below `p`. -/
theorem hasPrefix_not_keyLt : ∀ (k p : Key), hasPrefix k p = true → keyLt k p = false
  | _, [], _ => by cases ‹Key› <;> simp [keyLt]
  | [], _ :: _, h => by simp [hasPrefix] at h
  | a :: as, b :: bs, h => by
    simp only [hasPrefix, Bool.and_eq_true, decide_eq_true_eq] at h
    simp [keyLt, h.1, hasPrefix_not_keyLt as bs h.2]

/-- Keys that start with `p` are contiguous: above a key that is not below `p`
and does not start with `p`, no key starts with `p`. -/
theorem hasPrefix_false_of_keyLt : ∀ (p k k2 : Key), keyLt k p = false →
    hasPrefix k p = false → keyLt k k2 = true → hasPrefix k2 p = false
  | [], k, _, _, h, _ => by cases k <;> simp [hasPrefix] at h
  | _ :: _, [], _, h, _, _ => by simp [keyLt] at h
  | _ :: _, _ :: _, [], _, _, h => by simp [keyLt] at h
  | b :: bs, a :: as, c :: cs, h1, h2, h3 => by
    simp only [keyLt, hasPrefix, Bool.or_eq_false_iff, Bool.and_eq_false_iff, Bool.or_eq_true,
      Bool.and_eq_true, decide_eq_true_eq, decide_eq_false_iff_not] at h1 h2 h3 ⊢
    by_cases hcb : c = b
    · right
      subst hcb
      have hac : a = c := by
        rcases h3 with h3 | ⟨h3, _⟩
        · omega
        · exact h3
      subst hac
      have h1r : keyLt as bs = false := by
        rcases h1.2 with h | h
        · exact absurd rfl h
        · exact h
      have h2r : hasPrefix as bs = false := by
        rcases h2 with h | h
        · exact absurd rfl h
        · exact h
      have h3r : keyLt as cs = true := by
        rcases h3 with h | ⟨_, h⟩
        · omega
        · exact h
      exact hasPrefix_false_of_keyLt bs as cs h1r h2r h3r
    · left; exact hcb

/-! ## Lemmas on the scan loop -/

theorem valid_cons {σ : Type} (o : ScannerOptions σ) (all : List Item) (i : Item)
    (rest : List Item) : Scan.valid o ⟨all, i :: rest⟩ = hasPrefix i.key o.Prefix := by
  unfold Scan.valid Iterator.Valid Iterator.ValidForPrefix
  by_cases hp : o.Prefix = []
  · simp [hp, hasPrefix]
  · cases h : hasPrefix i.key o.Prefix <;> simp [hp, h]

theorem loop_cons {σ : Type} (o : ScannerOptions σ) (all : List Item) (i : Item)
    (rest : List Item) (st : σ) :
    Scan.loop o all (i :: rest) st =
      if hasPrefix i.key o.Prefix = true then
        if (o.Handler st (entryOf o.FetchValues i).1 (entryOf o.FetchValues i).2).2 = true then
          ((Scan.loop o all rest
              (o.Handler st (entryOf o.FetchValues i).1 (entryOf o.FetchValues i).2).1).1,
            entryOf o.FetchValues i :: (Scan.loop o all rest
              (o.Handler st (entryOf o.FetchValues i).1 (entryOf o.FetchValues i).2).1).2)
        else ((o.Handler st (entryOf o.FetchValues i).1 (entryOf o.FetchValues i).2).1,
          [entryOf o.FetchValues i])
      else (st, []) := by
  simp only [Scan.loop, valid_cons, entryOf, Item.KeyCopy]
  by_cases hp : hasPrefix i.key o.Prefix = true
  · simp only [hp, if_true]
    cases hgo : (o.Handler st i.key (if o.FetchValues = true then
        (match i.ValueCopy with
          | .ok val => val
          | .error _ => []) else [])).2 <;> simp
  · simp [hp]

theorem loop_calls_prefix {σ : Type} (o : ScannerOptions σ) (all : List Item) :
    ∀ (pos : List Item) (st : σ),
      (Scan.loop o all pos st).2 <+: pos.map (entryOf o.FetchValues) := by
  intro pos
  induction pos with
  | nil => intro st; simp [Scan.loop]
  | cons i rest ih =>
    intro st
    rw [loop_cons]
    split
    · split
      · simpa using ih _
      · simp
    · simp

theorem loop_state {σ : Type} (o : ScannerOptions σ) (all : List Item) :
    ∀ (pos : List Item) (st : σ),
      (Scan.loop o all pos st).1 = runHandler o.Handler st (Scan.loop o all pos st).2 := by
  intro pos
  induction pos with
  | nil => intro st; simp [Scan.loop, runHandler]
  | cons i rest ih =>
    intro st
    rw [loop_cons]
    split
    · split
      · simpa [runHandler] using ih _
      · simp [runHandler]
    · simp [runHandler]

theorem loop_stop {σ : Type} (o : ScannerOptions σ) (all : List Item) :
    ∀ (pos : List Item) (st : σ),
      (Scan.loop o all pos st).2 =
        (Scan.loop o.always all pos ()).2.take
          (((replay o.Handler st (Scan.loop o.always all pos ()).2).takeWhile id).length + 1) := by
  intro pos
  induction pos with
  | nil => intro st; simp [Scan.loop]
  | cons i rest ih =>
    intro st
    rw [loop_cons, loop_cons]
    have hp : o.always.Prefix = o.Prefix := rfl
    have hf : o.always.FetchValues = o.FetchValues := rfl
    have hh : ∀ (u : Unit) k v, o.always.Handler u k v = (u, true) := fun _ _ _ => rfl
    rw [hp, hf]
    simp only [hh, if_true]
    split
    · split <;> rename_i hgo
      · simp only [replay, hgo, List.takeWhile_cons, id, if_true, List.length_cons,
          List.take_succ_cons]
        congr 1
        exact ih _
      · simp only [Bool.not_eq_true] at hgo
        simp [replay, hgo]
    · simp

/-- With a handler that always continues the loop visits the entries from the
cursor up to the first key that does not start with the prefix. -/
theorem loop_always {σ : Type} (o : ScannerOptions σ) (all : List Item)
    (hh : ∀ st k v, (o.Handler st k v).2 = true) :
    ∀ (pos : List Item) (st : σ),
      (Scan.loop o all pos st).2 =
        (pos.takeWhile (fun i => hasPrefix i.key o.Prefix)).map (entryOf o.FetchValues) := by
  intro pos
  induction pos with
  | nil => intro st; simp [Scan.loop]
  | cons i rest ih =>
    intro st
    rw [loop_cons]
    by_cases hp : hasPrefix i.key o.Prefix = true
    · simp [hp, hh, ih]
    · simp [hp]

/-! ## Lemmas on the scan -/

theorem start_pos {σ : Type} (o : ScannerOptions σ) (all : List Item) :
    (Scan.start o ⟨all, []⟩).pos = startPos o all := by
  unfold Scan.start startPos Iterator.Rewind Iterator.Seek Iterator.Valid Iterator.Next
  by_cases ho : o.Offset = []
  · simp [ho]
  · cases hi : o.IncludeOffset
    · cases hd : List.dropWhile (fun i => keyLt i.key o.Offset) all <;> simp [ho, hd]
    · simp [ho]

theorem start_all {σ : Type} (o : ScannerOptions σ) (all : List Item) :
    (Scan.start o ⟨all, []⟩).all = all := by
  unfold Scan.start Iterator.Rewind Iterator.Seek Iterator.Valid Iterator.Next
  by_cases ho : o.Offset = []
  · simp [ho]
  · simp only [ho, if_false]
    split <;> rfl

theorem scan_eq {σ : Type} (db : DB) (now : Int) (o : ScannerOptions σ) (st : σ) :
    DB.Scan db now o st =
      ⟨(Scan.loop o (liveItems db now) (startPos o (liveItems db now)) st).1,
        (Scan.loop o (liveItems db now) (startPos o (liveItems db now)) st).2, none⟩ := by
  simp only [DB.Scan, Badger.View, Txn.NewIterator, start_pos, start_all, liveItems]

theorem liveItems_sorted (db : DB) (now : Int) (hs : db.badger.Sorted) :
    (liveItems db now).Pairwise (fun x y => keyLt x.key y.key = true) :=
  List.Pairwise.sublist (List.filter_sublist _) hs

theorem dropWhile_head_false {α : Type} (f : α → Bool) :
    ∀ (l : List α) (h : α) (t : List α), l.dropWhile f = h :: t → f h = false := by
  intro l
  induction l with
  | nil => intro h t e; simp at e
  | cons a l ih =>
    intro h t e
    cases hf : f a
    · simp [List.dropWhile, hf] at e
      rw [← e.1]; exact hf
    · simp [List.dropWhile, hf] at e
      exact ih h t e

/-! ## Lemmas on lookups -/

theorem sorted_key_inj : ∀ (l : List Item),
    l.Pairwise (fun x y => keyLt x.key y.key = true) →
    ∀ i j, i ∈ l → j ∈ l → i.key = j.key → i = j := by
  intro l
  induction l with
  | nil => intro _ i j hi; simp at hi
  | cons a l ih =>
    intro hp i j hi hj hk
    rw [List.pairwise_cons] at hp
    rcases List.mem_cons.1 hi with hia | hi
    · rcases List.mem_cons.1 hj with hja | hj
      · rw [hia, hja]
      · rw [hia] at hk
        exact absurd hk (keyLt_ne _ _ (hp.1 j hj))
    · rcases List.mem_cons.1 hj with hja | hj
      · rw [hja] at hk
        exact absurd hk.symm (keyLt_ne _ _ (hp.1 i hi))
      · exact ih hp.2 i j hi hj hk

theorem takeWhile_all {α : Type} (f : α → Bool) :
    ∀ (l : List α), (∀ x ∈ l, f x = true) → l.takeWhile f = l := by
  intro l
  induction l with
  | nil => intro _; rfl
  | cons a l ih =>
    intro h
    simp only [List.takeWhile, h a (List.mem_cons_self a l)]
    rw [ih (fun x hx => h x (List.mem_cons_of_mem a hx))]

/-- `Get` of the empty key is the engine's empty-key error, on every store. -/
theorem get_empty (db : DB) (now : Int) : DB.Get db now [] = ([], some Err.ErrEmptyKey) := by
  simp [DB.Get, Badger.View, Txn.Get]

/-- `Get` of a non-empty key, by the entry the store holds for it. -/
theorem get_of_ne (db : DB) (now : Int) (k : Key) (hk : k ≠ []) :
    DB.Get db now k =
      match db.badger.items.find? (fun i => decide (i.key = k)) with
      | some i =>
        if i.live now then (if i.unreadable then ([], some Err.ErrValueRead) else (i.value, none))
        else ([], some Err.ErrKeyNotFound)
      | none => ([], some Err.ErrKeyNotFound) := by
  simp only [DB.Get, Badger.View, Txn.Get, hk, if_false]
  cases hf : db.badger.items.find? (fun i => decide (i.key = k)) with
  | none => rfl
  | some i =>
    cases hl : i.live now <;> cases hu : i.unreadable <;> simp [Item.ValueCopy, hl, hu]

/-- On a sorted store `Get` reports not-found for a non-empty key exactly when
the key is not live. -/
theorem get_notFound_iff (db : DB) (now : Int) (k : Key) (hs : db.badger.Sorted)
    (hk : k ≠ []) :
    (DB.Get db now k).2 = some Err.ErrKeyNotFound ↔ k ∉ liveKeys db now := by
  rw [get_of_ne db now k hk]
  simp only [liveKeys, List.mem_map, List.mem_filter]
  cases hf : db.badger.items.find? (fun i => decide (i.key = k)) with
  | none =>
    simp only [true_iff]
    rintro ⟨j, ⟨hj, _⟩, hjk⟩
    have := List.find?_eq_none.1 hf j hj
    simp [hjk] at this
  | some i =>
    have hik : i.key = k := by simpa using List.find?_some hf
    have him : i ∈ db.badger.items := List.mem_of_find?_eq_some hf
    cases hl : i.live now
    · simp only [hl, Bool.false_eq_true, if_false, true_iff]
      rintro ⟨j, ⟨hj, hjl⟩, hjk⟩
      have : j = i := sorted_key_inj _ hs j i hj him (hjk.trans hik.symm)
      rw [this, hl] at hjl
      exact absurd hjl (by simp)
    · simp only [hl, if_true]
      have hin : ∃ a, (a ∈ db.badger.items ∧ a.live now = true) ∧ a.key = k := ⟨i, ⟨him, hl⟩, hik⟩
      simp only [hin, not_true_eq_false, iff_false]
      cases i.unreadable <;> simp

/-! ## Lemmas on prefixes in a sorted list of keys -/

theorem takeWhile_hasPrefix_eq_filter (p : Key) : ∀ (l : List Key),
    l.Pairwise (fun a b => keyLt a b = true) → (∀ k ∈ l, keyLt k p = false) →
    l.takeWhile (fun k => hasPrefix k p) = l.filter (fun k => hasPrefix k p) := by
  intro l
  induction l with
  | nil => intro _ _; rfl
  | cons a l ih =>
    intro hpw hge
    rw [List.pairwise_cons] at hpw
    cases ha : hasPrefix a p
    · have hnone : l.filter (fun k => hasPrefix k p) = [] := by
        rw [List.filter_eq_nil_iff]
        intro x hx
        have := hasPrefix_false_of_keyLt p a x (hge a (List.mem_cons_self a l)) ha (hpw.1 x hx)
        simp [this]
      simp [List.takeWhile, List.filter, ha, hnone]
    · simp only [List.takeWhile, List.filter, ha]
      rw [ih hpw.2 (fun k hk => hge k (List.mem_cons_of_mem a hk))]

theorem takeWhile_hasPrefix_eq_nil (p : Key) (l : List Key)
    (hpw : l.Pairwise (fun a b => keyLt a b = true)) (k : Key) (hk : k ∈ l)
    (hlt : keyLt k p = true) : l.takeWhile (fun k => hasPrefix k p) = [] := by
  cases l with
  | nil => rfl
  | cons a l =>
    rw [List.pairwise_cons] at hpw
    have halt : keyLt a p = true := by
      rcases List.mem_cons.1 hk with hka | hkl
      · rw [← hka]; exact hlt
      · exact keyLt_trans a k p (hpw.1 k hkl) hlt
    have ha : hasPrefix a p = false := by
      cases h : hasPrefix a p
      · rfl
      · have := hasPrefix_not_keyLt a p h
        rw [halt] at this
        exact absurd this (by simp)
    simp [List.takeWhile, ha]

/-! ## Lemmas on unreadable values -/

theorem blanked_key (i : Item) : i.blanked.key = i.key := by
  unfold Item.blanked; split <;> rfl

theorem blanked_live (now : Int) (i : Item) : i.blanked.live now = i.live now := by
  unfold Item.blanked; split <;> rfl

theorem blanked_entryOf (fetch : Bool) (i : Item) :
    entryOf fetch i.blanked = entryOf fetch i := by
  unfold Item.blanked entryOf Item.ValueCopy
  cases hu : i.unreadable <;> simp [hu]

theorem loop_blanked {σ : Type} (o : ScannerOptions σ) (all all2 : List Item) :
    ∀ (pos : List Item) (st : σ),
      Scan.loop o all (pos.map Item.blanked) st = Scan.loop o all2 pos st := by
  intro pos
  induction pos with
  | nil => intro st; rfl
  | cons i rest ih =>
    intro st
    rw [List.map_cons, loop_cons, loop_cons, blanked_key, blanked_entryOf]
    simp only [ih]

theorem liveItems_blanked (db : DB) (now : Int) :
    liveItems db.blanked now = (liveItems db now).map Item.blanked := by
  simp only [liveItems, DB.blanked, List.filter_map]
  congr 1
  apply List.filter_congr
  intro x _
  simp [blanked_live]

theorem startPos_blanked {σ : Type} (o : ScannerOptions σ) (all : List Item) :
    startPos o (all.map Item.blanked) = (startPos o all).map Item.blanked := by
  have hd : (all.map Item.blanked).dropWhile (fun i => keyLt i.key o.Offset) =
      (all.dropWhile (fun i => keyLt i.key o.Offset)).map Item.blanked := by
    rw [List.dropWhile_map]
    congr 1
    apply congrArg (fun f => List.dropWhile f all)
    funext x
    simp [blanked_key]
  unfold startPos
  split
  · rfl
  · split
    · exact hd
    · rw [hd, List.map_tail]

/-! ## Lemmas on the batch read -/

theorem mget_foldl (t : Txn) (keys : List Key) : ∀ (acc : List Value),
    keys.foldl (fun data key =>
      match t.Get key with
      | .error _ => data ++ [[]]
      | .ok item =>
        match item.ValueCopy with
        | .error _ => data ++ [[]]
        | .ok val => data ++ [val]) acc =
    acc ++ keys.map (fun key =>
      match t.Get key with
      | .error _ => []
      | .ok item =>
        match item.ValueCopy with
        | .error _ => []
        | .ok val => val) := by
  induction keys with
  | nil => intro acc; simp
  | cons k ks ih =>
    intro acc
    rw [List.foldl_cons, ih, List.map_cons]
    cases hg : t.Get k with
    | error e => simp
    | ok item =>
      cases hv : item.ValueCopy with
      | error e => simp [hv]
      | ok val => simp [hv]

theorem get_fst (db : DB) (now : Int) (k : Key) :
    (DB.Get db now k).1 = valueOrEmpty db now k := by
  by_cases hk : k = []
  · rw [hk, get_empty]; rfl
  · rw [get_of_ne db now k hk]
    simp only [valueOrEmpty, hk, if_false]
    cases hf : db.badger.items.find? (fun i => decide (i.key = k)) with
    | none => rfl
    | some i =>
      cases hl : i.live now <;> cases hu : i.unreadable <;> simp [hl, hu]

/-! ## Lemmas on writes and deletes -/

theorem find_insert_self (n : Item) : ∀ (l : List Item),
    (insertItem n l).find? (fun i => decide (i.key = n.key)) = some n := by
  intro l
  induction l with
  | nil => simp [insertItem]
  | cons a l ih =>
    unfold insertItem
    split
    · simp
    · split
      · simp
      · rename_i hne
        rw [List.find?_cons_of_neg _ (by simpa using hne)]
        exact ih

theorem find_insert_ne (n : Item) (k : Key) (hk : n.key ≠ k) : ∀ (l : List Item),
    (insertItem n l).find? (fun i => decide (i.key = k)) =
      l.find? (fun i => decide (i.key = k)) := by
  intro l
  induction l with
  | nil => simp [insertItem, hk]
  | cons a l ih =>
    unfold insertItem
    split
    · rw [List.find?_cons_of_neg _ (by simpa using hk)]
    · split
      · rename_i hak
        have hak2 : a.key ≠ k := by rw [hak]; exact hk
        rw [List.find?_cons_of_neg _ (by simpa using hk),
          List.find?_cons_of_neg _ (by simpa using hak2)]
      · by_cases ha : a.key = k
        · rw [List.find?_cons_of_pos _ (by simpa using ha),
            List.find?_cons_of_pos _ (by simpa using ha)]
        · rw [List.find?_cons_of_neg _ (by simpa using ha),
            List.find?_cons_of_neg _ (by simpa using ha)]
          exact ih

theorem find_filter_ne (k2 k : Key) (hk : k2 ≠ k) : ∀ (l : List Item),
    (l.filter (fun i => !decide (i.key = k2))).find? (fun i => decide (i.key = k)) =
      l.find? (fun i => decide (i.key = k)) := by
  intro l
  induction l with
  | nil => rfl
  | cons a l ih =>
    by_cases ha : a.key = k
    · have ha2 : a.key ≠ k2 := by rw [ha]; exact fun h => hk h.symm
      rw [List.filter_cons_of_pos (by simpa using ha2),
        List.find?_cons_of_pos _ (by simpa using ha),
        List.find?_cons_of_pos _ (by simpa using ha)]
    · rw [List.find?_cons_of_neg _ (by simpa using ha)]
      by_cases ha2 : a.key = k2
      · rw [List.filter_cons_of_neg (by simpa using ha2)]
        exact ih
      · rw [List.filter_cons_of_pos (by simpa using ha2),
          List.find?_cons_of_neg _ (by simpa using ha)]
        exact ih

theorem find_filter_self (k : Key) (l : List Item) :
    (l.filter (fun i => !decide (i.key = k))).find? (fun i => decide (i.key = k)) = none := by
  rw [List.find?_eq_none]
  intro x hx
  have := (List.mem_filter.1 hx).2
  simpa using this

theorem get_of_lookup (db1 db2 : DB) (k : Key) (h : lookup db1 k = lookup db2 k) (t : Int) :
    DB.Get db1 t k = DB.Get db2 t k := by
  simp only [lookup] at h
  simp only [DB.Get, Badger.View, Txn.Get, h]

theorem admission_none (t : Txn) (k : Key) (v : Value) (h : t.admission k v = none) :
    k ≠ [] ∧ t.accepts t.pending k v = true := by
  unfold Txn.admission at h
  by_cases hk : k = []
  · simp [hk] at h
  · by_cases ha : t.accepts t.pending k v = true
    · exact ⟨hk, ha⟩
    · simp [hk, ha] at h

theorem admission_of_accepts (t : Txn) (k : Key) (v : Value) (hk : k ≠ [])
    (ha : t.accepts t.pending k v = true) : t.admission k v = none := by
  simp [Txn.admission, hk, ha]

theorem txnSet_eq (t : Txn) (k : Key) (v : Value) :
    (∃ e, t.admission k v = some e ∧ t.Set k v = (t, some e)) ∨
    (t.admission k v = none ∧
      t.Set k v =
        (⟨t.accepts, t.now, insertItem ⟨k, v, none, false⟩ t.items, t.pending + 1⟩, none)) := by
  unfold Txn.Set
  cases h : t.admission k v with
  | none => right; exact ⟨rfl, rfl⟩
  | some e => left; exact ⟨e, rfl, rfl⟩

theorem txnSetWithTTL_eq (t : Txn) (k : Key) (v : Value) (dur : Int) :
    (∃ e, t.admission k v = some e ∧ t.SetWithTTL k v dur = (t, some e)) ∨
    (t.admission k v = none ∧
      t.SetWithTTL k v dur =
        (⟨t.accepts, t.now, insertItem ⟨k, v, some (t.now + dur), false⟩ t.items,
          t.pending + 1⟩, none)) := by
  unfold Txn.SetWithTTL
  cases h : t.admission k v with
  | none => right; exact ⟨rfl, rfl⟩
  | some e => left; exact ⟨e, rfl, rfl⟩

theorem txnDelete_eq (t : Txn) (k : Key) :
    (∃ e, t.admission k [] = some e ∧ t.Delete k = (t, some e)) ∨
    (t.admission k [] = none ∧
      t.Delete k =
        (⟨t.accepts, t.now, t.items.filter (fun i => !decide (i.key = k)), t.pending + 1⟩,
          none)) := by
  unfold Txn.Delete
  cases h : t.admission k [] with
  | none => right; exact ⟨rfl, rfl⟩
  | some e => left; exact ⟨e, rfl, rfl⟩

theorem txnSet_accepts (t : Txn) (k : Key) (v : Value) : (t.Set k v).1.accepts = t.accepts := by
  rcases txnSet_eq t k v with ⟨e, _, h⟩ | ⟨_, h⟩ <;> rw [h]

theorem txnDelete_accepts (t : Txn) (k : Key) : (t.Delete k).1.accepts = t.accepts := by
  rcases txnDelete_eq t k with ⟨e, _, h⟩ | ⟨_, h⟩ <;> rw [h]

theorem txnSet_lookup_ne (t : Txn) (k2 k : Key) (v : Value) (hk : k2 ≠ k) :
    (t.Set k2 v).1.items.find? (fun i => decide (i.key = k)) =
      t.items.find? (fun i => decide (i.key = k)) := by
  rcases txnSet_eq t k2 v with ⟨e, _, h⟩ | ⟨_, h⟩ <;> rw [h]
  exact find_insert_ne ⟨k2, v, none, false⟩ k hk _

theorem txnSetWithTTL_lookup_ne (t : Txn) (k2 k : Key) (v : Value) (dur : Int) (hk : k2 ≠ k) :
    (t.SetWithTTL k2 v dur).1.items.find? (fun i => decide (i.key = k)) =
      t.items.find? (fun i => decide (i.key = k)) := by
  rcases txnSetWithTTL_eq t k2 v dur with ⟨e, _, h⟩ | ⟨_, h⟩ <;> rw [h]
  exact find_insert_ne ⟨k2, v, _, false⟩ k hk _

theorem txnDelete_lookup_ne (t : Txn) (k2 k : Key) (hk : k2 ≠ k) :
    (t.Delete k2).1.items.find? (fun i => decide (i.key = k)) =
      t.items.find? (fun i => decide (i.key = k)) := by
  rcases txnDelete_eq t k2 with ⟨e, _, h⟩ | ⟨_, h⟩ <;> rw [h]
  exact find_filter_ne k2 k hk _

/-- The entries a store holds after `Update`: those the closure left when it
returned `nil`, the old ones when it returned an error. -/
theorem update_items (b : Badger) (now : Int) (fn : Txn → Txn × Option Err) :
    (b.Update now fn).1.items =
      if (fn ⟨b.accepts, now, b.items, 0⟩).2 = none then (fn ⟨b.accepts, now, b.items, 0⟩).1.items
      else b.items := by
  unfold Badger.Update
  rcases hfn : fn ⟨b.accepts, now, b.items, 0⟩ with ⟨t, _ | e⟩ <;> simp

theorem set_lookup_ne (db : DB) (now : Int) (k2 k : Key) (v : Value) (ttl : Int)
    (hk : k2 ≠ k) : lookup (db.Set now k2 v ttl).1 k = lookup db k := by
  simp only [DB.Set, lookup, update_items]
  by_cases httl : ttl < 1
  · simp only [httl, if_true]
    split
    · exact txnSet_lookup_ne _ k2 k v hk
    · rfl
  · simp only [httl, if_false]
    split
    · exact txnSetWithTTL_lookup_ne _ k2 k v _ hk
    · rfl

theorem mset_foldl_lookup (k : Key) : ∀ (data : List (Key × Value)) (t : Txn),
    data.any (fun kv => decide (kv.1 = k)) = false →
    (data.foldl (fun t kv => (t.Set kv.1 kv.2).1) t).items.find? (fun i => decide (i.key = k)) =
      t.items.find? (fun i => decide (i.key = k)) := by
  intro data
  induction data with
  | nil => intro t _; rfl
  | cons kv rest ih =>
    intro t h
    simp only [List.any_cons, Bool.or_eq_false_iff, decide_eq_false_iff_not] at h
    rw [List.foldl_cons, ih _ h.2]
    exact txnSet_lookup_ne t kv.1 k kv.2 h.1

theorem del_foldl_accepts : ∀ (keys : List Key) (t : Txn),
    (keys.foldl (fun t key => (t.Delete key).1) t).accepts = t.accepts := by
  intro keys
  induction keys with
  | nil => intro t; rfl
  | cons a keys ih => intro t; rw [List.foldl_cons, ih, txnDelete_accepts]

theorem del_foldl_lookup_ne (k : Key) : ∀ (keys : List Key) (t : Txn), k ∉ keys →
    (keys.foldl (fun t key => (t.Delete key).1) t).items.find?
        (fun i => decide (i.key = k)) = t.items.find? (fun i => decide (i.key = k)) := by
  intro keys
  induction keys with
  | nil => intro t _; rfl
  | cons a keys ih =>
    intro t h
    rw [List.foldl_cons, ih _ (fun hm => h (List.mem_cons_of_mem a hm))]
    exact txnDelete_lookup_ne t a k (fun e => h (by rw [e]; exact List.mem_cons_self k keys))

theorem del_foldl_sublist : ∀ (keys : List Key) (t : Txn),
    (keys.foldl (fun t key => (t.Delete key).1) t).items.Sublist t.items := by
  intro keys
  induction keys with
  | nil => intro t; exact List.Sublist.refl _
  | cons a keys ih =>
    intro t
    rw [List.foldl_cons]
    refine (ih _).trans ?_
    rcases txnDelete_eq t a with ⟨e, _, h⟩ | ⟨_, h⟩
    · rw [h]
    · rw [h]
      exact List.filter_sublist _

/-- A listed non-empty key whose delete the engine admits, however many writes
the transaction holds, has no entry after the deletes. -/
theorem del_foldl_lookup_mem (k : Key) (hk : k ≠ []) : ∀ (keys : List Key) (t : Txn),
    k ∈ keys → (∀ n, t.accepts n k [] = true) →
    (keys.foldl (fun t key => (t.Delete key).1) t).items.find?
        (fun i => decide (i.key = k)) = none := by
  intro keys
  induction keys with
  | nil => intro t h; simp at h
  | cons a keys ih =>
    intro t h hacc
    rw [List.foldl_cons]
    by_cases hm : k ∈ keys
    · exact ih _ hm (by rw [txnDelete_accepts]; exact hacc)
    · have hak : a = k := by
        rcases List.mem_cons.1 h with h | h
        · exact h.symm
        · exact absurd h hm
      rw [del_foldl_lookup_ne k keys _ hm, hak]
      rcases txnDelete_eq t k with ⟨e, he, _⟩ | ⟨_, h2⟩
      · rw [admission_of_accepts t k [] hk (hacc _)] at he
        exact absurd he (by simp)
      · rw [h2]
        exact find_filter_self k _

theorem del_items (db : DB) (now : Int) (keys : List Key) :
    (db.Del now keys).1.badger.items =
      (keys.foldl (fun t key => (t.Delete key).1)
        (⟨db.badger.accepts, now, db.badger.items, 0⟩ : Txn)).items := by
  simp [DB.Del, update_items]

theorem del_lookup_ne (db : DB) (now : Int) (keys : List Key) (k : Key) (h : k ∉ keys) :
    lookup (db.Del now keys).1 k = lookup db k := by
  simp only [lookup, del_items]
  exact del_foldl_lookup_ne k keys _ h

theorem del_lookup_mem (db : DB) (now : Int) (keys : List Key) (k : Key) (hk : k ≠ [])
    (h : k ∈ keys) (hacc : ∀ n, db.badger.accepts n k [] = true) :
    lookup (db.Del now keys).1 k = none := by
  simp only [lookup, del_items]
  exact del_foldl_lookup_mem k hk keys _ h hacc

theorem run_lookup (db : DB) (k : Key) (op : Op) (h : op.writes k = false) :
    lookup (op.run db) k = lookup db k := by
  cases op with
  | set now k2 v ttl =>
    simp only [Op.writes, decide_eq_false_iff_not] at h
    exact set_lookup_ne db now k2 k v ttl h
  | mset now data =>
    simp only [Op.writes] at h
    simp only [Op.run, DB.MSet, lookup, update_items, if_true]
    exact mset_foldl_lookup k data _ h
  | del now keys =>
    simp only [Op.writes, List.any_eq_false, decide_eq_true_eq] at h
    simp only [Op.run]
    apply del_lookup_ne
    intro hm
    exact h k hm rfl

theorem runOps_lookup (k : Key) : ∀ (ops : List Op) (db : DB),
    (∀ op ∈ ops, op.writes k = false) → lookup (runOps db ops) k = lookup db k := by
  intro ops
  induction ops with
  | nil => intro db _; rfl
  | cons op ops ih =>
    intro db h
    simp only [runOps, List.foldl_cons]
    have := ih (op.run db) (fun o ho => h o (List.mem_cons_of_mem op ho))
    simp only [runOps] at this
    rw [this]
    exact run_lookup db k op (h op (List.mem_cons_self op ops))

/-! ## Lemmas on the ordering invariant -/

theorem keyLt_total : ∀ (a b : Key), a ≠ b → keyLt a b = true ∨ keyLt b a = true
  | [], [], h => absurd rfl h
  | [], _ :: _, _ => by simp [keyLt]
  | _ :: _, [], _ => by simp [keyLt]
  | x :: xs, y :: ys, h => by
    simp only [keyLt, Bool.or_eq_true, Bool.and_eq_true, decide_eq_true_eq]
    rcases Nat.lt_trichotomy x y with hlt | heq | hgt
    · left; left; exact hlt
    · subst heq
      have hne : xs ≠ ys := fun e => h (by rw [e])
      rcases keyLt_total xs ys hne with h1 | h1
      · left; right; exact ⟨rfl, h1⟩
      · right; right; exact ⟨rfl, h1⟩
    · right; left; exact hgt

theorem mem_insertItem (n : Item) : ∀ (l : List Item) (x : Item),
    x ∈ insertItem n l → x = n ∨ x ∈ l := by
  intro l
  induction l with
  | nil => intro x hx; simpa [insertItem] using hx
  | cons a l ih =>
    intro x hx
    unfold insertItem at hx
    split at hx
    · rcases List.mem_cons.1 hx with h | h
      · left; exact h
      · right; exact h
    · split at hx
      · rcases List.mem_cons.1 hx with h | h
        · left; exact h
        · right; exact List.mem_cons_of_mem a h
      · rcases List.mem_cons.1 hx with h | h
        · right; rw [h]; exact List.mem_cons_self a l
        · rcases ih x h with h2 | h2
          · left; exact h2
          · right; exact List.mem_cons_of_mem a h2

/-- An ordered write keeps the entries strictly ascending by key. -/
theorem insertItem_sorted (n : Item) : ∀ (l : List Item),
    l.Pairwise (fun x y => keyLt x.key y.key = true) →
    (insertItem n l).Pairwise (fun x y => keyLt x.key y.key = true) := by
  intro l
  induction l with
  | nil => intro _; simp [insertItem]
  | cons a l ih =>
    intro hp
    have hp2 := List.pairwise_cons.1 hp
    unfold insertItem
    split
    · rename_i hna
      refine List.pairwise_cons.2 ⟨?_, hp⟩
      intro x hx
      rcases List.mem_cons.1 hx with h | h
      · rw [h]; exact hna
      · exact keyLt_trans _ _ _ hna (hp2.1 x h)
    · split
      · rename_i hak
        refine List.pairwise_cons.2 ⟨?_, hp2.2⟩
        intro x hx
        rw [← hak]
        exact hp2.1 x hx
      · rename_i hna hak
        refine List.pairwise_cons.2 ⟨?_, ih hp2.2⟩
        intro x hx
        rcases mem_insertItem n l x hx with h | h
        · rw [h]
          rcases keyLt_total a.key n.key hak with h1 | h1
          · exact h1
          · exact absurd h1 hna
        · exact hp2.1 x h

theorem txnSet_sorted (t : Txn) (k : Key) (v : Value)
    (h : t.items.Pairwise (fun x y => keyLt x.key y.key = true)) :
    (t.Set k v).1.items.Pairwise (fun x y => keyLt x.key y.key = true) := by
  rcases txnSet_eq t k v with ⟨e, _, h2⟩ | ⟨_, h2⟩
  · rw [h2]; exact h
  · rw [h2]; exact insertItem_sorted _ _ h

theorem txnSetWithTTL_sorted (t : Txn) (k : Key) (v : Value) (dur : Int)
    (h : t.items.Pairwise (fun x y => keyLt x.key y.key = true)) :
    (t.SetWithTTL k v dur).1.items.Pairwise (fun x y => keyLt x.key y.key = true) := by
  rcases txnSetWithTTL_eq t k v dur with ⟨e, _, h2⟩ | ⟨_, h2⟩
  · rw [h2]; exact h
  · rw [h2]; exact insertItem_sorted _ _ h

/-- The ordering invariant is kept by `Set`. -/
theorem set_sorted (db : DB) (now : Int) (k : Key) (v : Value) (ttl : Int)
    (hs : db.badger.Sorted) : (db.Set now k v ttl).1.badger.Sorted := by
  simp only [DB.Set, Badger.Sorted, update_items]
  by_cases httl : ttl < 1
  · simp only [httl, if_true]
    split
    · exact txnSet_sorted _ k v hs
    · exact hs
  · simp only [httl, if_false]
    split
    · exact txnSetWithTTL_sorted _ k v _ hs
    · exact hs

theorem mset_foldl_sorted : ∀ (data : List (Key × Value)) (t : Txn),
    t.items.Pairwise (fun x y => keyLt x.key y.key = true) →
    (data.foldl (fun t kv => (t.Set kv.1 kv.2).1) t).items.Pairwise
      (fun x y => keyLt x.key y.key = true) := by
  intro data
  induction data with
  | nil => intro t h; exact h
  | cons kv rest ih =>
    intro t h
    rw [List.foldl_cons]
    exact ih _ (txnSet_sorted t kv.1 kv.2 h)

/-- The ordering invariant is kept by `MSet`. -/
theorem mset_sorted (db : DB) (now : Int) (data : List (Key × Value))
    (hs : db.badger.Sorted) : (db.MSet now data).1.badger.Sorted := by
  simp only [DB.MSet, Badger.Sorted, update_items, if_true]
  exact mset_foldl_sorted data _ hs

/-- The ordering invariant is kept by `Del`. -/
theorem del_sorted (db : DB) (now : Int) (keys : List Key)
    (hs : db.badger.Sorted) : (db.Del now keys).1.badger.Sorted := by
  simp only [Badger.Sorted, del_items]
  exact List.Pairwise.sublist (del_foldl_sublist keys _) hs

/-- The ordering invariant holds in every store reached from a sorted store by
write operations. -/
theorem runOps_sorted : ∀ (ops : List Op) (db : DB),
    db.badger.Sorted → (runOps db ops).badger.Sorted := by
  intro ops
  induction ops with
  | nil => intro db h; exact h
  | cons op ops ih =>
    intro db h
    simp only [runOps, List.foldl_cons]
    apply ih
    cases op with
    | set now k v ttl => exact set_sorted db now k v ttl h
    | mset now data => exact mset_sorted db now data h
    | del now keys => exact del_sorted db now keys h

/-! ## Lemmas on the batch write -/

theorem mset_foldl_written : ∀ (data : List (Key × Value)) (t : Txn),
    (data.map Prod.fst).Nodup →
    (∀ kv ∈ data, kv.1 ≠ [] ∧ ∀ n, t.accepts n kv.1 kv.2 = true) →
    ∀ kv ∈ data,
      (data.foldl (fun t kv => (t.Set kv.1 kv.2).1) t).items.find?
        (fun i => decide (i.key = kv.1)) = some ⟨kv.1, kv.2, none, false⟩ := by
  intro data
  induction data with
  | nil => intro t _ _ kv h; simp at h
  | cons a rest ih =>
    intro t hnd hacc kv hkv
    rw [List.map_cons, List.nodup_cons] at hnd
    rw [List.foldl_cons]
    rcases List.mem_cons.1 hkv with h | h
    · rw [h]
      have hnot : rest.any (fun kv => decide (kv.1 = a.1)) = false := by
        rw [List.any_eq_false]
        intro x hx
        simp only [decide_eq_true_eq]
        intro e
        exact hnd.1 (List.mem_map.2 ⟨x, hx, e⟩)
      rw [mset_foldl_lookup a.1 rest _ hnot]
      have ha := hacc a (List.mem_cons_self a rest)
      rcases txnSet_eq t a.1 a.2 with ⟨e, he, _⟩ | ⟨_, h2⟩
      · rw [admission_of_accepts t a.1 a.2 ha.1 (ha.2 _)] at he
        exact absurd he (by simp)
      · rw [h2]
        exact find_insert_self ⟨a.1, a.2, none, false⟩ _
    · apply ih _ hnd.2 _ kv h
      intro x hx
      rw [txnSet_accepts]
      exact hacc x (List.mem_cons_of_mem a hx)

/-- When the engine admits every write of the batch, `MSet` writes every pair
of the mapping: `Get` returns the value of each key with no error. -/
theorem mset_writes_accepted_pairs (db : DB) (now : Int) (data : List (Key × Value))
    (hnd : (data.map Prod.fst).Nodup)
    (hacc : ∀ kv ∈ data, kv.1 ≠ [] ∧ ∀ n, db.badger.accepts n kv.1 kv.2 = true) :
    (db.MSet now data).2 = none ∧
    ∀ kv ∈ data, ∀ t, DB.Get (db.MSet now data).1 t kv.1 = (kv.2, none) := by
  refine ⟨rfl, ?_⟩
  intro kv hkv t
  have h := mset_foldl_written data ⟨db.badger.accepts, now, db.badger.items, 0⟩ hnd hacc kv hkv
  rw [get_of_ne _ t kv.1 (hacc kv hkv).1]
  simp only [DB.MSet, update_items, if_true, h]
  simp [Item.live]

/-! ## Lemmas on the scan after an offset -/

theorem tail_dropWhile_eq_filter (k : Key) : ∀ (l : List Key),
    l.Pairwise (fun a b => keyLt a b = true) → k ∈ l →
    (l.dropWhile (fun a => keyLt a k)).tail = l.filter (fun a => keyLt k a) := by
  intro l
  induction l with
  | nil => intro _ h; simp at h
  | cons a l ih =>
    intro hp hk
    have hp2 := List.pairwise_cons.1 hp
    cases hak : keyLt a k
    · have hka : a = k := by
        rcases List.mem_cons.1 hk with h | h
        · exact h.symm
        · have := hp2.1 k h
          rw [hak] at this
          exact absurd this (by simp)
      subst hka
      rw [List.dropWhile_cons_of_neg (by simp [hak]), List.tail_cons,
        List.filter_cons_of_neg (by simp [keyLt_irrefl])]
      symm
      rw [List.filter_eq_self]
      intro x hx
      exact hp2.1 x hx
    · have hne : k ≠ a := fun e => by rw [e, keyLt_irrefl] at hak; exact absurd hak (by simp)
      have hkl : k ∈ l := by
        rcases List.mem_cons.1 hk with h | h
        · exact absurd h hne
        · exact h
      have hnot : keyLt k a = false := by
        cases h : keyLt k a
        · rfl
        · have := keyLt_trans a k a hak h
          rw [keyLt_irrefl] at this
          exact absurd this (by simp)
      simp only [List.dropWhile, hak, List.filter, hnot]
      exact ih hp2.2 hkl

/-- With an offset that is a live key, `IncludeOffset = false`, empty prefix and
a handler that always returns true, `Scan` visits exactly the live keys strictly
above the offset, in ascending order. -/
theorem scan_after_present_offset {σ : Type} (db : DB) (now : Int)
    (o : ScannerOptions σ) (st : σ) (hs : db.badger.Sorted)
    (ho : o.Offset ≠ []) (hi : o.IncludeOffset = false) (hp : o.Prefix = [])
    (hh : ∀ s k v, (o.Handler s k v).2 = true) (hk : o.Offset ∈ liveKeys db now) :
    (DB.Scan db now o st).calls.map Prod.fst =
      (liveKeys db now).filter (fun k => keyLt o.Offset k) := by
  have hsorted : (liveKeys db now).Pairwise (fun a b => keyLt a b = true) := by
    have := liveItems_sorted db now hs
    simpa [liveKeys, liveItems, List.pairwise_map] using this
  rw [← tail_dropWhile_eq_filter o.Offset _ hsorted hk, scan_eq]
  simp only [loop_always o _ hh, startPos, ho, hi, if_false, Bool.false_eq_true, hp, hasPrefix]
  rw [takeWhile_all _ _ (fun _ _ => rfl), List.map_map]
  simp only [liveKeys, List.dropWhile_map, ← List.map_tail]
  rfl

/-! ## Claim C1: scan with a prefix -/

/-- C1, as stated, fails: on the store `"a"`, `"ab"`, `"b"` the scan with empty
offset and prefix `"b"` calls the handler on nothing, though `"b"` is a live key
that starts with the prefix. -/
theorem scan_prefix_not_exactly_matching_keys :
    ¬ (∀ (db : DB) (now : Int) (o : ScannerOptions Unit) (st : Unit),
        db.badger.Sorted → o.Offset = [] → o.Prefix ≠ [] →
        (∀ s k v, (o.Handler s k v).2 = true) →
        (DB.Scan db now o st).calls.map Prod.fst =
          (liveKeys db now).filter (fun k => hasPrefix k o.Prefix)) := by
  intro h
  have := h scenarioDB 0 { visitAll with Prefix := [98] } ()
    (by unfold Badger.Sorted; decide) rfl (by decide) (fun _ _ _ => rfl)
  revert this
  decide

/-- C1, amended: with empty offset, a non-empty prefix `P` and a handler that
always returns true, `Scan` calls the handler, once each and in strictly
ascending key order, on the live keys from the first key of the store up to the
first live key that does not start with `P`.  When no live key is below `P`
these are exactly the live keys that start with `P`; when some live key is
below `P` the handler is not called at all. -/
theorem scan_prefix_visits_leading_run {σ : Type} (db : DB) (now : Int)
    (o : ScannerOptions σ) (st : σ) (hs : db.badger.Sorted)
    (ho : o.Offset = []) (_hp : o.Prefix ≠ [])
    (hh : ∀ s k v, (o.Handler s k v).2 = true) :
    (DB.Scan db now o st).calls.map Prod.fst =
        (liveKeys db now).takeWhile (fun k => hasPrefix k o.Prefix) ∧
    ((DB.Scan db now o st).calls.map Prod.fst).Pairwise (fun a b => keyLt a b = true) ∧
    ((∀ k ∈ liveKeys db now, keyLt k o.Prefix = false) →
      (DB.Scan db now o st).calls.map Prod.fst =
        (liveKeys db now).filter (fun k => hasPrefix k o.Prefix)) ∧
    ((∃ k ∈ liveKeys db now, keyLt k o.Prefix = true) →
      (DB.Scan db now o st).calls = []) := by
  have hsorted : (liveKeys db now).Pairwise (fun a b => keyLt a b = true) := by
    have := liveItems_sorted db now hs
    simpa [liveKeys, liveItems, List.pairwise_map] using this
  have hk : (DB.Scan db now o st).calls.map Prod.fst =
      (liveKeys db now).takeWhile (fun k => hasPrefix k o.Prefix) := by
    rw [scan_eq]
    simp only [loop_always o _ hh, startPos, ho, if_true, liveKeys, List.takeWhile_map,
      List.map_map]
    rfl
  refine ⟨hk, ?_, ?_, ?_⟩
  · rw [hk]
    exact List.Pairwise.sublist (List.takeWhile_sublist _) hsorted
  · intro hge
    rw [hk]
    exact takeWhile_hasPrefix_eq_filter o.Prefix _ hsorted hge
  · rintro ⟨k, hkm, hlt⟩
    have := takeWhile_hasPrefix_eq_nil o.Prefix _ hsorted k hkm hlt
    rw [this] at hk
    exact List.map_eq_nil_iff.1 hk

/-- C1, amended, on the scenario of the spec: prefix `"a"` visits `"a"` and
`"ab"` and stops before `"b"`. -/
theorem scan_prefix_visits_leading_run_witness :
    scenarioDB.badger.Sorted ∧
    (DB.Scan scenarioDB 0 { visitAll with Prefix := [97] } ()).calls =
      [([97], [49]), ([97, 98], [50])] ∧
    (DB.Scan scenarioDB 0 { visitAll with Prefix := [97] } ()).calls.map Prod.fst =
      (liveKeys scenarioDB 0).filter (fun k => hasPrefix k [97]) :=
  ⟨by unfold Badger.Sorted; decide, by decide,
    (scan_prefix_visits_leading_run scenarioDB 0 { visitAll with Prefix := [97] } ()
      (by unfold Badger.Sorted; decide) rfl (by decide) (fun _ _ _ => rfl)).2.2.1 (by decide)⟩

/-! ## Claim C2: scan of the whole store -/

/-- C2: with empty offset, empty prefix and a handler that always returns true,
`Scan` returns no error and calls the handler on the live entries of the store,
one call per live key and no other call; the keys passed are strictly ascending
(so pairwise distinct).  A key is passed exactly when the store holds a live
entry for it, which for a non-empty key is when `Get` does not report it as not
found (the engine does not read the empty key). -/
theorem scan_visits_every_live_key_ascending {σ : Type} (db : DB) (now : Int)
    (o : ScannerOptions σ) (st : σ) (hs : db.badger.Sorted)
    (ho : o.Offset = []) (hp : o.Prefix = [])
    (hh : ∀ s k v, (o.Handler s k v).2 = true) :
    (DB.Scan db now o st).err = none ∧
    (DB.Scan db now o st).calls = (liveItems db now).map (entryOf o.FetchValues) ∧
    (DB.Scan db now o st).calls.map Prod.fst = liveKeys db now ∧
    ((DB.Scan db now o st).calls.map Prod.fst).Pairwise (fun a b => keyLt a b = true) ∧
    ((DB.Scan db now o st).calls.map Prod.fst).Nodup ∧
    (∀ k, k ∈ (DB.Scan db now o st).calls.map Prod.fst ↔
      ∃ i ∈ db.badger.items, i.key = k ∧ i.live now = true) ∧
    (∀ k, k ≠ [] → (k ∈ (DB.Scan db now o st).calls.map Prod.fst ↔
      (DB.Get db now k).2 ≠ some Err.ErrKeyNotFound)) := by
  have hc : (DB.Scan db now o st).calls = (liveItems db now).map (entryOf o.FetchValues) := by
    rw [scan_eq]
    simp only [loop_always o _ hh, startPos, ho, if_true, hp, hasPrefix]
    rw [takeWhile_all _ _ (fun _ _ => rfl)]
  have hk : (DB.Scan db now o st).calls.map Prod.fst = liveKeys db now := by
    rw [hc]
    simp [liveKeys, liveItems, entryOf, Function.comp_def]
  have hsorted : (liveKeys db now).Pairwise (fun a b => keyLt a b = true) := by
    have := liveItems_sorted db now hs
    simpa [liveKeys, liveItems, List.pairwise_map] using this
  refine ⟨by rw [scan_eq], hc, hk, ?_, ?_, ?_, ?_⟩
  · rw [hk]; exact hsorted
  · rw [hk]
    exact hsorted.imp (fun h => keyLt_ne _ _ h)
  · intro k
    rw [hk]
    simp only [liveKeys, List.mem_map, List.mem_filter]
    constructor
    · rintro ⟨i, ⟨hi, hl⟩, hik⟩
      exact ⟨i, hi, hik, hl⟩
    · rintro ⟨i, hi, hik, hl⟩
      exact ⟨i, ⟨hi, hl⟩, hik⟩
  · intro k hne
    rw [hk, ne_eq, get_notFound_iff db now k hs hne, not_not]

/-- C2 on the store of the scenario. -/
theorem scan_visits_every_live_key_ascending_witness :
    scenarioDB.badger.Sorted ∧
    (DB.Scan scenarioDB 0 visitAll ()).calls =
      [([97], [49]), ([97, 98], [50]), ([98], [51])] ∧
    (DB.Scan scenarioDB 0 visitAll ()).calls.map Prod.fst = liveKeys scenarioDB 0 :=
  ⟨by unfold Badger.Sorted; decide, by decide,
    (scan_visits_every_live_key_ascending scenarioDB 0 visitAll ()
      (by unfold Badger.Sorted; decide) rfl rfl (fun _ _ _ => rfl)).2.2.1⟩

/-! ## Claim C3: the excluded offset is never visited -/

/-- C3: with a non-empty offset `K` and `IncludeOffset = false`, whatever the
prefix, `FetchValues` and the handler, no call of the handler made by `Scan`
has the key `K`. -/
theorem scan_never_visits_excluded_offset {σ : Type} (db : DB) (now : Int)
    (o : ScannerOptions σ) (st : σ) (hs : db.badger.Sorted)
    (ho : o.Offset ≠ []) (hi : o.IncludeOffset = false) :
    ∀ c ∈ (DB.Scan db now o st).calls, c.1 ≠ o.Offset := by
  intro c hc
  rw [scan_eq] at hc
  have hpre := loop_calls_prefix o (liveItems db now) (startPos o (liveItems db now)) st
  have hmem := hpre.subset hc
  simp only [startPos, ho, hi, if_false, Bool.false_eq_true] at hmem
  obtain ⟨i, hit, rfl⟩ := List.mem_map.1 hmem
  cases hd : (liveItems db now).dropWhile (fun i => keyLt i.key o.Offset) with
  | nil => rw [hd] at hit; simp at hit
  | cons h t =>
    rw [hd] at hit
    have hhead := dropWhile_head_false _ _ h t hd
    have hsub : (h :: t).Sublist (liveItems db now) := by
      rw [← hd]; exact List.dropWhile_sublist _
    have hpw := List.Pairwise.sublist hsub (liveItems_sorted db now hs)
    rw [List.pairwise_cons] at hpw
    have hlt := hpw.1 i hit
    intro he
    simp only [entryOf] at he
    rw [he] at hlt
    simp only at hhead
    rw [hlt] at hhead
    exact absurd hhead (by simp)

/-- C3 on the store of the scenario, with the offset `"ab"`. -/
theorem scan_never_visits_excluded_offset_witness :
    scenarioDB.badger.Sorted ∧ afterAB.Offset ≠ [] ∧ afterAB.IncludeOffset = false ∧
    (DB.Scan scenarioDB 0 afterAB ()).calls = [([98], [51])] ∧
    ∀ c ∈ (DB.Scan scenarioDB 0 afterAB ()).calls, c.1 ≠ [97, 98] :=
  ⟨by unfold Badger.Sorted; decide, by decide, rfl, by decide,
    scan_never_visits_excluded_offset scenarioDB 0 afterAB ()
      (by unfold Badger.Sorted; decide) (by decide) rfl⟩

/-! ## Claim C4: scan after an offset -/

/-- C4 does not hold of `Scan`: the offset `"aa"` is not a key of the store
`"a"`, `"ab"`, `"b"`; the live keys above it are `"ab"` and `"b"`, and the scan
with `IncludeOffset = false` visits only `"b"`, because `start` advances the
cursor without comparing the key under it to the offset. -/
theorem scan_absent_offset_skips_next_key :
    [97, 97] ∉ liveKeys scenarioDB 0 ∧
    (liveKeys scenarioDB 0).filter (fun k => keyLt [97, 97] k) = [[97, 98], [98]] ∧
    (DB.Scan scenarioDB 0 afterAA ()).calls.map Prod.fst = [[98]] := by
  decide

/-! ## Claim C5: the handler stops the scan -/

/-- C5: `Scan` returns no error, and the handler calls it makes are the
entries an unstopped scan with the same options visits, up to and including the
first one on which the handler returns false; the handler's captured state is
the one those calls leave, so no later call is made.  In particular a handler
that returns false on its first call is called exactly once when there is at
least one qualifying entry. -/
theorem scan_stops_at_first_false {σ : Type} (db : DB) (now : Int)
    (o : ScannerOptions σ) (st : σ) :
    (DB.Scan db now o st).err = none ∧
    (DB.Scan db now o st).calls =
      (DB.Scan db now o.always ()).calls.take
        (((replay o.Handler st (DB.Scan db now o.always ()).calls).takeWhile id).length + 1) ∧
    (DB.Scan db now o st).state = runHandler o.Handler st (DB.Scan db now o st).calls ∧
    (∀ e rest, (DB.Scan db now o.always ()).calls = e :: rest →
      (o.Handler st e.1 e.2).2 = false → (DB.Scan db now o st).calls = [e]) := by
  have hpos : startPos o.always (liveItems db now) = startPos o (liveItems db now) := rfl
  have hcalls : (DB.Scan db now o st).calls =
      (DB.Scan db now o.always ()).calls.take
        (((replay o.Handler st (DB.Scan db now o.always ()).calls).takeWhile id).length + 1) := by
    rw [scan_eq, scan_eq]
    simp only [hpos]
    exact loop_stop o _ _ st
  refine ⟨by rw [scan_eq], hcalls, ?_, ?_⟩
  · rw [scan_eq]
    exact loop_state o _ _ st
  · intro e rest hq hfalse
    rw [hcalls, hq]
    simp [replay, hfalse]

/-- C5 on the store of the scenario: a handler that returns false on its first
call is called once, on the first entry. -/
theorem scan_stops_at_first_false_witness :
    (DB.Scan scenarioDB 0 stopAtOnce.always ()).calls =
      [([97], [49]), ([97, 98], [50]), ([98], [51])] ∧
    (DB.Scan scenarioDB 0 stopAtOnce 0).calls = [([97], [49])] ∧
    (DB.Scan scenarioDB 0 stopAtOnce 0).state = 1 :=
  ⟨by decide,
    (scan_stops_at_first_false scenarioDB 0 stopAtOnce 0).2.2.2 ([97], [49])
      [([97, 98], [50]), ([98], [51])] (by decide) rfl,
    by decide⟩

/-! ## Claim C6: batch read -/

/-- C6: `MGet` returns one value per key, in the order of the keys (duplicates
and the empty list included): the element at the position of a key is the
stored value when the key is live and its value can be retrieved, and the empty
string when the key is absent, expired or its read fails; it is the value `Get`
returns for that key.  `MGet` has no error result. -/
theorem mget_one_value_per_key (db : DB) (now : Int) (keys : List Key) :
    (DB.MGet db now keys).length = keys.length ∧
    DB.MGet db now keys = keys.map (valueOrEmpty db now) ∧
    DB.MGet db now keys = keys.map (fun k => (DB.Get db now k).1) ∧
    (∀ (n : Nat) (k : Key), keys[n]? = some k →
      (DB.MGet db now keys)[n]? = some (valueOrEmpty db now k)) := by
  have h2 : DB.MGet db now keys = keys.map (fun k => (DB.Get db now k).1) := by
    simp only [DB.MGet, Badger.View, mget_foldl, List.nil_append]
    apply List.map_congr_left
    intro k _
    simp only [DB.Get, Badger.View]
    cases hg : Txn.Get ⟨db.badger.accepts, now, db.badger.items, 0⟩ k with
    | error e => rfl
    | ok item =>
      cases hv : item.ValueCopy with
      | error e => simp [hv]
      | ok val => simp [hv]
  have h1 : DB.MGet db now keys = keys.map (valueOrEmpty db now) := by
    rw [h2]
    apply List.map_congr_left
    intro k _
    exact get_fst db now k
  refine ⟨by rw [h1, List.length_map], h1, h2, ?_⟩
  intro n k hk
  rw [h1, List.getElem?_map, hk]
  rfl

/-- C6 on the damaged store: a live key, an unreadable one, an absent one and
a repeated one. -/
theorem mget_one_value_per_key_witness :
    DB.MGet damagedDB 0 [[98], [97], [120], [98]] = [[51], [], [], [51]] ∧
    (DB.MGet damagedDB 0 [[98], [97], [120], [98]]).length = 4 :=
  ⟨by decide, (mget_one_value_per_key damagedDB 0 [[98], [97], [120], [98]]).1⟩

/-! ## Claim C7: write without expiry -/

/-- C7: when `Set k v ttl` with `ttl ≤ 0` returns no error, the store holds for
`k` a readable entry with value `v` and no expiry (whatever it held for `k`
before), `Get k` returns `v` and no error at every clock reading, and it still
does after any sequence of `Set`, `MSet` and `Del` calls that neither write nor
delete `k`. -/
theorem set_without_ttl_never_expires (db db2 : DB) (now : Int) (k : Key) (v : Value)
    (ttl : Int) (httl : ttl ≤ 0) (hset : db.Set now k v ttl = (db2, none)) :
    lookup db2 k = some ⟨k, v, none, false⟩ ∧
    (∀ t, DB.Get db2 t k = (v, none)) ∧
    (∀ ops, (∀ op ∈ ops, Op.writes k op = false) →
      ∀ t, DB.Get (runOps db2 ops) t k = (v, none)) := by
  have hlt : ttl < 1 := by omega
  have hboth : k ≠ [] ∧ lookup db2 k = some ⟨k, v, none, false⟩ := by
    simp only [DB.Set, Badger.Update, hlt, if_true] at hset
    rcases txnSet_eq ⟨db.badger.accepts, now, db.badger.items, 0⟩ k v with
      ⟨e, _, h2⟩ | ⟨hadm, h2⟩
    · rw [h2] at hset
      simp at hset
    · rw [h2] at hset
      simp only [Prod.mk.injEq, and_true] at hset
      rw [← hset]
      exact ⟨(admission_none _ k v hadm).1, find_insert_self ⟨k, v, none, false⟩ _⟩
  have hl := hboth.2
  have hget : ∀ (d : DB), lookup d k = some ⟨k, v, none, false⟩ →
      ∀ t, DB.Get d t k = (v, none) := by
    intro d hd t
    simp only [lookup] at hd
    rw [get_of_ne d t k hboth.1, hd]
    simp [Item.live]
  refine ⟨hl, hget db2 hl, ?_⟩
  intro ops hops t
  exact hget _ ((runOps_lookup k ops db2 hops).trans hl) t

/-- C7 on a store whose entry `"x"` had an expiry: after `Set "x" "2" 0` the
value is read back long after the old expiry. -/
theorem set_without_ttl_never_expires_witness :
    (0 : Int) ≤ 0 ∧
    expiringDB.Set 0 [120] [50] 0 = ((expiringDB.Set 0 [120] [50] 0).1, none) ∧
    DB.Get (expiringDB.Set 0 [120] [50] 0).1 1000000 [120] = ([50], none) :=
  ⟨by decide, rfl,
    (set_without_ttl_never_expires expiringDB (expiringDB.Set 0 [120] [50] 0).1 0 [120] [50] 0
      (by decide) rfl).2.1 1000000⟩

/-! ## Claim C8: batch delete -/

/-- C8, as stated, fails: `Del` of the list that holds the empty key returns no
error, and `Get` of the empty key afterwards fails with the engine's empty-key
error, not with the not-found error. -/
theorem del_empty_key_not_reported_not_found :
    ¬ (∀ (db : DB) (now : Int) (keys : List Key),
        (db.Del now keys).2 = none ∧
        (∀ k ∈ keys, ∀ t, DB.Get (db.Del now keys).1 t k = ([], some Err.ErrKeyNotFound)) ∧
        (∀ k, k ∉ keys → ∀ t, DB.Get (db.Del now keys).1 t k = DB.Get db t k)) := by
  intro h
  have h2 := (h scenarioDB 0 [[]]).2.1 [] (List.mem_cons_self _ _) 0
  rw [get_empty] at h2
  exact absurd h2 (by decide)

/-- C8, amended: `Del keys` returns no error, also when some of the keys are
absent.  Afterwards `Get` of every non-empty key of the list whose delete the
engine admits returns the empty value with the not-found error, at every clock
reading; `Get` of the empty key returns the empty value with the engine's
empty-key error; and `Get` of every key that is not in the list returns what it
returned before. -/
theorem del_removes_admitted_keys (db : DB) (now : Int) (keys : List Key) :
    (db.Del now keys).2 = none ∧
    (∀ k ∈ keys, k ≠ [] → (∀ n, db.badger.accepts n k [] = true) →
      ∀ t, DB.Get (db.Del now keys).1 t k = ([], some Err.ErrKeyNotFound)) ∧
    (∀ t, DB.Get (db.Del now keys).1 t [] = ([], some Err.ErrEmptyKey)) ∧
    (∀ k, k ∉ keys → ∀ t, DB.Get (db.Del now keys).1 t k = DB.Get db t k) := by
  refine ⟨rfl, ?_, ?_, ?_⟩
  · intro k hk hne hacc t
    have h := del_lookup_mem db now keys k hne hk hacc
    simp only [lookup] at h
    rw [get_of_ne _ t k hne, h]
  · intro t
    exact get_empty _ t
  · intro k hk t
    exact get_of_lookup _ _ k (del_lookup_ne db now keys k hk) t

/-- C8, amended, on the scenario of the spec: `"x"` exists, `"y"` does not. -/
theorem del_removes_admitted_keys_witness :
    (expiringDB.Del 0 [[120], [121]]).2 = none ∧
    DB.Get expiringDB 0 [120] = ([49], none) ∧
    DB.Get (expiringDB.Del 0 [[120], [121]]).1 0 [120] = ([], some Err.ErrKeyNotFound) :=
  ⟨(del_removes_admitted_keys expiringDB 0 [[120], [121]]).1, by decide,
    (del_removes_admitted_keys expiringDB 0 [[120], [121]]).2.1 [120] (by decide) (by decide)
      (fun _ => rfl) 0⟩

/-- A delete the engine refuses is dropped by `Del` just as a refused write is
dropped by `MSet`: on an engine whose transactions hold at most two deletes,
`Del ["y", "z", "x"]` returns no error and `"x"` is still read back. -/
theorem del_reports_no_error_for_refused_delete :
    (smallTxnDB.Del 0 [[121], [122], [120]]).2 = none ∧
    DB.Get (smallTxnDB.Del 0 [[121], [122], [120]]).1 0 [120] = ([49], none) ∧
    DB.Get (smallTxnDB.Del 0 [[120]]).1 0 [120] = ([], some Err.ErrKeyNotFound) := by
  decide

/-! ## Claim C9: batch write -/

/-- C9 does not hold of `MSet`: the engine refuses the write of the empty key;
`Set` reports the error, while `MSet` of the one pair `"" -> "1"` returns no
error and leaves the store as it was, so `Get` of the key does not return the
value and `MGet` returns the empty placeholder.  The same happens with valid
keys: on an engine whose transactions hold at most two writes, `MSet` of three
pairs returns no error and the third pair is not written. -/
theorem mset_reports_no_error_for_rejected_write :
    (scenarioDB.Set 0 [] [49] 0).2 = some Err.ErrEmptyKey ∧
    (scenarioDB.MSet 0 [([], [49])]).2 = none ∧
    (scenarioDB.MSet 0 [([], [49])]).1.badger.items = scenarioDB.badger.items ∧
    DB.Get (scenarioDB.MSet 0 [([], [49])]).1 0 [] = ([], some Err.ErrEmptyKey) ∧
    DB.MGet (scenarioDB.MSet 0 [([], [49])]).1 0 [[]] = [[]] ∧
    (smallTxnDB.MSet 0 [([97], [49]), ([98], [50]), ([99], [51])]).2 = none ∧
    DB.Get (smallTxnDB.MSet 0 [([97], [49]), ([98], [50]), ([99], [51])]).1 0 [98] =
      ([50], none) ∧
    DB.Get (smallTxnDB.MSet 0 [([97], [49]), ([98], [50]), ([99], [51])]).1 0 [99] =
      ([], some Err.ErrKeyNotFound) := by
  decide

/-! ## Claim C10: value retrieval failures during a scan -/

/-- C10, as stated, fails: in `damagedDB` retrieving the value of `"a"` fails,
and the scan with `FetchValues = true` calls the handler on `"a"` with the
empty value, goes on to `"b"` and returns no error. -/
theorem scan_value_failure_not_reported :
    visitAll.FetchValues = true ∧
    (∃ i ∈ damagedDB.badger.items, i.key = [97] ∧ i.ValueCopy = .error Err.ErrValueRead) ∧
    (DB.Scan damagedDB 0 visitAll ()).calls = [([97], []), ([98], [51])] ∧
    (DB.Scan damagedDB 0 visitAll ()).err = none :=
  ⟨rfl, ⟨⟨[97], [49], none, true⟩, by decide, rfl, rfl⟩, by decide, rfl⟩

/-- C10, amended: a failure to retrieve the value of an entry is dropped by
`Scan`.  The scan returns no error, and it makes the same handler calls and
leaves the same handler state as on the store in which every entry whose value
cannot be retrieved holds the empty value: the handler is called on such an
entry with the empty value, and the iteration goes on as its return says. -/
theorem scan_value_failure_reads_as_empty {σ : Type} (db : DB) (now : Int)
    (o : ScannerOptions σ) (st : σ) :
    (DB.Scan db now o st).err = none ∧
    (DB.Scan db now o st).calls = (DB.Scan db.blanked now o st).calls ∧
    (DB.Scan db now o st).state = (DB.Scan db.blanked now o st).state ∧
    (∀ i : Item, i.unreadable = true → entryOf true i = (i.key, [])) := by
  have h : Scan.loop o (liveItems db.blanked now) (startPos o (liveItems db.blanked now)) st =
      Scan.loop o (liveItems db now) (startPos o (liveItems db now)) st := by
    rw [liveItems_blanked, startPos_blanked]
    exact loop_blanked o _ _ _ st
  refine ⟨by rw [scan_eq], ?_, ?_, ?_⟩
  · rw [scan_eq, scan_eq, h]
  · rw [scan_eq, scan_eq, h]
  · intro i hi
    simp [entryOf, Item.ValueCopy, hi]

/-- C10, amended, on the damaged store. -/
theorem scan_value_failure_reads_as_empty_witness :
    (DB.Scan damagedDB.blanked 0 visitAll ()).calls = [([97], []), ([98], [51])] ∧
    (DB.Scan damagedDB 0 visitAll ()).calls = (DB.Scan damagedDB.blanked 0 visitAll ()).calls :=
  ⟨by decide, (scan_value_failure_reads_as_empty damagedDB 0 visitAll ()).2.1⟩

end Redix
